import Mathlib

/-!
Verification of `scripts/convert_review_issues.py`: the converter that splits
review markdown documents into individual issue files.

Strings are modelled as `List Char`.  The regular expressions of the script
(`ISSUE_HEADING_PATTERN`, `TRAILING_RULE_PATTERN`, `PRIORITY_PATTERN`) are
modelled by explicit scanners implementing exactly the leftmost, greedy,
backtracking semantics of Python's `re` module on these particular patterns;
substitution and search loops are fuelled with fuel bounds that are always
sufficient (each step of the corresponding Python loop consumes at least one
character).  Filesystem state is modelled by the list of file names already
present in a destination directory, and `Path` objects are abstracted to the
pieces the script reads from them (the stem and the ROOT-relative display).
-/

namespace ConvertReview

def toL (s : String) : List Char := s.data

/-- The whitespace characters of Python's `str.strip` / `\s` (ASCII range). -/
def isPySpace (c : Char) : Bool :=
  c.toNat = 32 || c.toNat = 9 || c.toNat = 10 || c.toNat = 13 || c.toNat = 11 || c.toNat = 12

/-- Python `str.strip` with an arbitrary character class: drop matching
characters from both ends. -/
def pyStripWith (p : Char → Bool) (l : List Char) : List Char :=
  (l.dropWhile p).rdropWhile p

/-- Python `str.strip()` (whitespace). -/
def pyStrip (l : List Char) : List Char := pyStripWith isPySpace l

/-- Python `str.rstrip()` (whitespace). -/
def pyRStrip (l : List Char) : List Char := l.rdropWhile isPySpace

/-- `[A-Za-z0-9]` as a character test. -/
def isAsciiAlnum (c : Char) : Bool :=
  (48 ≤ c.toNat && c.toNat ≤ 57) || (65 ≤ c.toNat && c.toNat ≤ 90) ||
    (97 ≤ c.toNat && c.toNat ≤ 122)

/-- `re.sub(r"[^A-Za-z0-9]+", "_", ·)`: every maximal run of
non-alphanumeric characters is replaced by a single underscore. -/
def subNonAlnumAux : Nat → List Char → List Char
  | 0, _ => []
  | _ + 1, [] => []
  | fuel + 1, c :: rest =>
    if isAsciiAlnum c then c :: subNonAlnumAux fuel rest
    else '_' :: subNonAlnumAux fuel (rest.dropWhile (fun d => !isAsciiAlnum d))

def subNonAlnum (l : List Char) : List Char := subNonAlnumAux (l.length + 1) l

/-- `re.sub(r"_+", "_", ·)`: collapse runs of underscores. -/
def collapseUnderscoreAux : Nat → List Char → List Char
  | 0, _ => []
  | _ + 1, [] => []
  | fuel + 1, c :: rest =>
    if c = '_' then '_' :: collapseUnderscoreAux fuel (rest.dropWhile (fun d => d = '_'))
    else c :: collapseUnderscoreAux fuel rest

def collapseUnderscore (l : List Char) : List Char := collapseUnderscoreAux (l.length + 1) l

/-- Python `str.upper` on a single character (ASCII; all characters reaching
this point in `sanitize_title` are ASCII alphanumerics or underscores). -/
def pyToUpperChar (c : Char) : Char :=
  if 97 ≤ c.toNat ∧ c.toNat ≤ 122 then Char.ofNat (c.toNat - 32) else c

/-- `sanitize_title` from the script. -/
def sanitize_title (value : List Char) : List Char :=
  let s1 := subNonAlnum (pyStrip value)
  let s2 := collapseUnderscore s1
  let s3 := pyStripWith (fun c => c = '_') s2
  let s4 := s3.map pyToUpperChar
  if s4 = [] then toL "UNTITLED" else s4

/-- `TRAILING_RULE_PATTERN = re.compile(r"\n*---\s*$", re.MULTILINE)`.
Attempt a match at the start of `l`; on success return its length.
`\n*` is effectively forced to its maximal run (the next pattern element is a
literal hyphen), and `\s*` is greedy but backtracks until the MULTILINE `$`
(end of string, or a position directly before a newline) holds. -/
def tryRuleMatch (l : List Char) : Option Nat :=
  let nl := l.takeWhile (fun c => c == '\n')
  let rest := l.drop nl.length
  if (toL "---").isPrefixOf rest then
    let after := rest.drop 3
    let w := after.takeWhile isPySpace
    if (after.drop w.length).isEmpty then some (nl.length + 3 + w.length)
    else
      let k := (w.reverse.takeWhile (fun c => !(c == '\n'))).length
      if k = w.length then none else some (nl.length + 3 + (w.length - k - 1))
  else none

/-- `TRAILING_RULE_PATTERN.sub("", ·)`: remove every (leftmost,
non-overlapping) match, scanning left to right. -/
def subRuleAux : Nat → List Char → List Char
  | 0, l => l
  | _ + 1, [] => []
  | fuel + 1, c :: rest =>
    match tryRuleMatch (c :: rest) with
    | some n => subRuleAux fuel ((c :: rest).drop n)
    | none => c :: subRuleAux fuel rest

def subTrailingRule (l : List Char) : List Char := subRuleAux (l.length + 1) l

/-- The span-trimming done in `extract_issues`:
`section = text[start:end].strip()` followed by
`section = TRAILING_RULE_PATTERN.sub("", section).strip()`. -/
def trimSpan (raw : List Char) : List Char := pyStrip (subTrailingRule (pyStrip raw))

/-- The label part `\*\*(?:Priority|Severity):\*\*` of `PRIORITY_PATTERN`. -/
def priorityLabelMatch (l : List Char) : Bool :=
  (toL "**Priority:**").isPrefixOf l || (toL "**Severity:**").isPrefixOf l

/-- Attempt `PRIORITY_PATTERN = \*\*(?:Priority|Severity):\*\*\s*([^\n]+)` at
the start of `l`; on success return the text captured by `([^\n]+)`.
`\s*` is greedy (and may consume newlines); it backtracks only when the string
ends directly after the whitespace run, in which case the last character of
the run that is not itself a newline is captured. -/
def matchPriorityAt (l : List Char) : Option (List Char) :=
  if priorityLabelMatch l then
    let rest := l.drop 13
    let w := rest.takeWhile isPySpace
    let after := rest.drop w.length
    match after with
    | [] =>
      match w.reverse.dropWhile (fun c => c == '\n') with
      | [] => none
      | c :: _ => some [c]
    | _ :: _ => some (after.takeWhile (fun c => !(c == '\n')))
  else none

/-- `PRIORITY_PATTERN.search`: leftmost match. -/
def searchPriority : List Char → Option (List Char)
  | [] => none
  | c :: rest =>
    match matchPriorityAt (c :: rest) with
    | some g => some g
    | none => searchPriority rest

/-- `priority = priority_match.group(1).strip() if priority_match else None`. -/
def extractPriority (sec : List Char) : Option (List Char) :=
  (searchPriority sec).map pyStrip

/-- `"\n".join(lines)`. -/
def joinNl : List (List Char) → List Char
  | [] => []
  | [x] => x
  | x :: y :: rest => x ++ '\n' :: joinNl (y :: rest)

/-- `body_lines = [f"## {title}", "", section]` followed by
`body = "\n".join(line for line in body_lines if line) + "\n"`. -/
def buildBody (title sec : List Char) : List Char :=
  joinNl (([toL "## " ++ title, [], sec]).filter (fun line => !line.isEmpty)) ++ toL "\n"

def isDigitChar (c : Char) : Bool := 48 ≤ c.toNat && c.toNat ≤ 57

/-- A match of `ISSUE_HEADING_PATTERN`: `match.start()`, `match.end()`,
`match.group(1)` (the digits) and `match.group(2)` (the raw title text). -/
structure HMatch where
  s : Nat
  e : Nat
  num : List Char
  title : List Char
  deriving DecidableEq, Repr

/-- Attempt `ISSUE_HEADING_PATTERN = ^###\s+(\d+)\.\s+(.*)` (MULTILINE) at the
start of `l`, which the caller guarantees is at a line start.  Returns
(match length, digits, title).  Both `\s+` runs are greedy with no feasible
backtracking (a digit, a dot, or `.*` follows), and `(.*)` takes the rest of
the current line. -/
def tryHeading (l : List Char) : Option (Nat × List Char × List Char) :=
  if (toL "###").isPrefixOf l then
    let r1 := l.drop 3
    let w1 := r1.takeWhile isPySpace
    if w1.isEmpty then none else
    let r2 := r1.drop w1.length
    let d := r2.takeWhile isDigitChar
    if d.isEmpty then none else
    match r2.drop d.length with
    | [] => none
    | c0 :: r4 =>
      if c0 = '.' then
        let w2 := r4.takeWhile isPySpace
        if w2.isEmpty then none else
        let t := (r4.drop w2.length).takeWhile (fun c => !(c == '\n'))
        some (3 + w1.length + d.length + 1 + w2.length + t.length, d, t)
      else none
  else none

/-- `ISSUE_HEADING_PATTERN.finditer(text)`: scan every position left to
right; `^` holds at position 0 and directly after a newline; after a match the
scan resumes at `match.end()` (which never sits right after a newline, since
the match ends either at the end of a `(.*)` capture or at the string end). -/
def findAux : Nat → List Char → Nat → Bool → List HMatch
  | 0, _, _, _ => []
  | _ + 1, [], _, _ => []
  | fuel + 1, c :: rest, pos, bol =>
    if bol then
      match tryHeading (c :: rest) with
      | some (mlen, d, t) =>
        ⟨pos, pos + mlen, d, t⟩ :: findAux fuel ((c :: rest).drop mlen) (pos + mlen) false
      | none => findAux fuel rest (pos + 1) (c == '\n')
    else findAux fuel rest (pos + 1) (c == '\n')

def findHeadings (text : List Char) : List HMatch := findAux (text.length + 1) text 0 true

/-- `text[a:b]` for `0 ≤ a ≤ b`. -/
def slice (text : List Char) (a b : Nat) : List Char := (text.drop a).take (b - a)

/-- The raw (untrimmed) issue spans: for each match the span runs from
`match.end()` to the next match's `start()`, or to `len(text)` for the last
one. -/
def rawSpansGo (text : List Char) : List HMatch → List (List Char)
  | [] => []
  | [m] => [slice text m.e text.length]
  | m :: m' :: rest => slice text m.e m'.s :: rawSpansGo text (m' :: rest)

def rawSpans (text : List Char) : List (List Char) := rawSpansGo text (findHeadings text)

/-- `str(n)` for a natural number. -/
def digitChar (d : Nat) : Char := Char.ofNat (48 + d)

def toDecimalAux : Nat → Nat → List Char
  | 0, _ => []
  | fuel + 1, n => if n < 10 then [digitChar n] else toDecimalAux fuel (n / 10) ++ [digitChar (n % 10)]

def toDecimal (n : Nat) : List Char := toDecimalAux (n + 1) n

/-- `int(s)` on a digit string. -/
def ofDecimal (l : List Char) : Nat := l.foldl (fun acc c => acc * 10 + (c.toNat - 48)) 0

/-- `f"{n:03d}"` for a natural number. -/
def pad3 (n : Nat) : List Char := List.replicate (3 - (toDecimal n).length) '0' ++ toDecimal n

/-- The `Issue` dataclass.  `source_path` is abstracted to the ROOT-relative
display string the serializer uses. -/
structure Issue where
  title : List Char
  source_issue_index : Nat
  group : List Char
  category : List Char
  sequence : Nat
  sourceRel : List Char
  body : List Char
  priority : Option (List Char)
  status : List Char
  extra_frontmatter : List (List Char × List Char)
  deriving DecidableEq, Repr

/-- `value.replace('"', '\\"')` (escape double quotes). -/
def escapeQuotes (v : List Char) : List Char :=
  v.flatMap (fun c => if c = '"' then ['\\', '"'] else [c])

/-- `fields.update(extra)` on an insertion-ordered mapping: existing keys are
overwritten in place, new keys are appended. -/
def updateFields (fields extra : List (List Char × List Char)) :
    List (List Char × List Char) :=
  extra.foldl
    (fun fs kv =>
      if fs.any (fun p => p.1 = kv.1) then
        fs.map (fun p => if p.1 = kv.1 then (p.1, kv.2) else p)
      else fs ++ [kv])
    fields

/-- `f"{key}: \"{escaped}\""`. -/
def kvLine (k v : List Char) : List Char := k ++ toL ": \"" ++ escapeQuotes v ++ toL "\""

def frontmatterFields (iss : Issue) : List (List Char × List Char) :=
  updateFields
    [(toL "title", iss.title), (toL "group", iss.group), (toL "category", iss.category),
     (toL "priority", iss.priority.getD []), (toL "status", iss.status),
     (toL "source", iss.sourceRel), (toL "issue_index", toDecimal iss.source_issue_index),
     (toL "sequence", toDecimal iss.sequence)]
    iss.extra_frontmatter

/-- `Issue.frontmatter_lines`. -/
def frontmatter_lines (iss : Issue) : List (List Char) :=
  toL "---" :: (frontmatterFields iss).map (fun kv => kvLine kv.1 kv.2) ++ [toL "---"]

/-- `Issue.document`: frontmatter, a blank line, then the body with trailing
whitespace trimmed and exactly one final newline. -/
def documentOf (iss : Issue) : List Char :=
  joinNl (frontmatter_lines iss) ++ toL "\n\n" ++ (pyRStrip iss.body ++ toL "\n")

/-- The error raised by `parse_group` (a `ValueError` in the script; the
spec's `UnrecognizedCategory` condition). -/
inductive ConvError where
  | unrecognizedCategory (stem : List Char)
  deriving DecidableEq, Repr

/-- `parse_group(file_stem)`. -/
def parse_group (file_stem : List Char) : Except ConvError (List Char × List Char) :=
  if (toL "_MONITORING").isSuffixOf file_stem then
    .ok (file_stem.take (file_stem.length - 11), toL "monitoring")
  else if (toL "_PERFORMANCE").isSuffixOf file_stem then
    .ok (file_stem.take (file_stem.length - 12), toL "performance")
  else .error (.unrecognizedCategory file_stem)

/-- Construction of one `Issue` inside the `extract_issues` loop. -/
def mkExtractedIssue (text sourceRel g c : List Char) (m : HMatch) (endPos : Nat) : Issue :=
  let sec := trimSpan (slice text m.e endPos)
  { title := pyStrip m.title
    source_issue_index := ofDecimal m.num
    group := g
    category := c
    sequence := 0
    sourceRel := sourceRel
    body := buildBody (pyStrip m.title) sec
    priority := extractPriority sec
    status := toL "pending"
    extra_frontmatter := [] }

def issuesGo (text sourceRel g c : List Char) : List HMatch → List Issue
  | [] => []
  | [m] => [mkExtractedIssue text sourceRel g c m text.length]
  | m :: m' :: rest =>
    mkExtractedIssue text sourceRel g c m m'.s :: issuesGo text sourceRel g c (m' :: rest)

/-- `extract_issues(source_path)`.  A missing heading short-circuits (after a
warning log, which is not modelled) before `parse_group` is consulted. -/
def extract_issues (file_stem sourceRel text : List Char) : Except ConvError (List Issue) :=
  let ms := findHeadings text
  if ms.isEmpty then .ok []
  else
    match parse_group file_stem with
    | .error e => .error e
    | .ok gc => .ok (issuesGo text sourceRel gc.1 gc.2 ms)

/-- `generate_filename(issue, counters)`: bump the per-category counter,
store the new value as the issue's `sequence`, and build the base/file name.
Returns (updated counters, updated issue, base_name, filename). -/
def generate_filename (counters : List Char → Nat) (iss : Issue) :
    (List Char → Nat) × Issue × List Char × List Char :=
  let n := counters iss.category + 1
  let counters' := fun c => if c = iss.category then n else counters c
  let base_name := pad3 n ++ toL "_" ++ iss.group ++ toL "_" ++ sanitize_title iss.title
  (counters', { iss with sequence := n }, base_name, base_name ++ toL ".md")

/-- The candidate file names tried by the collision loop in `write_issue`:
`base.md`, `base_1.md`, `base_2.md`, … -/
def candName (base : List Char) : Nat → List Char
  | 0 => base ++ toL ".md"
  | k + 1 => base ++ toL "_" ++ toDecimal (k + 1) ++ toL ".md"

/-- The `while target_path.exists()` loop of `write_issue`: try candidate
names in order until one is not present.  The loop is fuelled; a fuel of
`existing.length + 1` always reaches the first free candidate, because the
`existing.length + 1` candidate names are pairwise distinct and can therefore
not all be present (proved below). -/
def resolveAux (existing : List (List Char)) (base : List Char) : Nat → Nat → List Char
  | 0, k => candName base k
  | fuel + 1, k =>
    if candName base k ∈ existing then resolveAux existing base fuel (k + 1)
    else candName base k

def resolveFilename (existing : List (List Char)) (base : List Char) : List Char :=
  resolveAux existing base (existing.length + 1) 0

/-- `write_issue(issue, destination_dir, counters)`.  The state is the pair of
the counters dictionary and, per category, the list of file names present in
that category's destination directory. -/
def write_issue (st : (List Char → Nat) × (List Char → List (List Char))) (iss : Issue) :
    ((List Char → Nat) × (List Char → List (List Char))) × Issue × List Char :=
  let gf := generate_filename st.1 iss
  let iss' := gf.2.1
  let chosen := resolveFilename (st.2 iss'.category) gf.2.2.1
  ((gf.1, fun c => if c = iss'.category then chosen :: st.2 c else st.2 c), iss', chosen)

/-- The write loop of `main`: process all extracted issues in order,
threading the counters and the destination directories through. -/
def processIssues (st : (List Char → Nat) × (List Char → List (List Char))) :
    List Issue → List (Issue × List Char)
  | [] => []
  | i :: rest =>
    let w := write_issue st i
    (w.2.1, w.2.2) :: processIssues w.1 rest

/-- The full write phase starting from zeroed counters and empty destination
directories. -/
def runPipeline (issues : List Issue) : List (Issue × List Char) :=
  processIssues (fun _ => 0, fun _ => []) issues

/-! Spec-side definitions.  These are NOT translations of the script; they
follow the words of the specification and are compared with the script's
behaviour in refinement claims. -/

/-- Split a string into lines at every newline character. -/
def splitNl : List Char → List (List Char)
  | [] => [[]]
  | c :: rest =>
    if c = '\n' then [] :: splitNl rest
    else
      match splitNl rest with
      | [] => [[c]]
      | h :: t => (c :: h) :: t

/-- Undo `escapeQuotes`: replace every (leftmost, non-overlapping)
backslash-quote pair by a quote. -/
def unescapeQuotes : List Char → List Char
  | [] => []
  | [c] => [c]
  | c₁ :: c₂ :: rest =>
    if c₁ = '\\' ∧ c₂ = '"' then '"' :: unescapeQuotes rest
    else c₁ :: unescapeQuotes (c₂ :: rest)

/-- Modelled from the spec: the metadata block of a serialized record, i.e.
the lines strictly between the two `---` delimiter lines. -/
def metaBlock (doc : List Char) : List (List Char) :=
  (((splitNl doc).dropWhile (fun line => !(line == toL "---"))).drop 1).takeWhile
    (fun line => !(line == toL "---"))

/-- Modelled from the spec: parse one `key: "value"` line of the metadata
block, unescaping internal double quotes. -/
def specParseMetaField (doc key : List Char) : Option (List Char) :=
  ((metaBlock doc).find? (fun line => (key ++ toL ": \"").isPrefixOf line)).bind
    (fun line =>
      let r := line.drop (key.length + 3)
      if r.getLast? = some '"' then some (unescapeQuotes r.dropLast) else none)

/-- Modelled from the spec (§4.3 step 5): a priority/severity field is the
bold label followed, on the same line, by nonempty free text running to the
end of the line; its value is that text, trimmed. -/
def specPriorityFieldAt (l : List Char) : Option (List Char) :=
  if priorityLabelMatch l then
    let restLine := (l.drop 13).takeWhile (fun c => !(c == '\n'))
    if restLine.isEmpty then none else some (pyStrip restLine)
  else none

/-- Modelled from the spec: the first priority/severity field of a span in
textual order, if any. -/
def specFirstPriority : List Char → Option (List Char)
  | [] => none
  | c :: rest =>
    match specPriorityFieldAt (c :: rest) with
    | some v => some v
    | none => specFirstPriority rest


/-! Theorems. -/

theorem isSuffixOf_iff_sfx (l₁ l₂ : List Char) : l₁.isSuffixOf l₂ = true ↔ l₁ <:+ l₂ := by
  simp [List.isSuffixOf_iff_suffix]

theorem take_prefix_of_append (pre sfx : List Char) :
    (pre ++ sfx).take ((pre ++ sfx).length - sfx.length) = pre := by
  have h : (pre ++ sfx).length - sfx.length = pre.length := by
    simp
  rw [h, List.take_left]

/-- C2: the claim says the persisted body is the level-2 heading, a blank
line, then the trimmed span.  The script builds
`"\n".join(line for line in [f"## {title}", "", section] if line) + "\n"`,
and the `if line` filter drops the intended blank line, so heading and span
end up on adjacent lines. -/
theorem c2_body_omits_blank_line :
    buildBody (toL "Leak") (toL "Body text") = toL "## Leak\nBody text\n" ∧
    buildBody (toL "Leak") (toL "Body text") ≠ toL "## Leak\n\nBody text\n" := by
  decide

/-- C3: the claim says only a trailing horizontal rule (three or more
hyphens) is removed from the span.  Because `TRAILING_RULE_PATTERN` carries
`re.MULTILINE` and is applied with `sub`, a `---` line in the middle of the
span is removed as well, and a run of more than three hyphens loses only its
last three. -/
theorem c3_rule_trimming_not_trailing_only :
    trimSpan (toL "a\n---\nb") = toL "a\nb" ∧
    trimSpan (toL "x\n----") = toL "x\n-" := by
  decide

/-- C10: a document whose text has no heading match yields an empty issue
list, short-circuiting before the classifier runs, so no unrecognized
category error can arise from it no matter what its stem is. -/
theorem c10_no_headings_no_classification (file_stem sourceRel text : List Char)
    (h : findHeadings text = []) :
    extract_issues file_stem sourceRel text = .ok [] := by
  simp [extract_issues, h]

theorem c10_witness :
    findHeadings (toL "no headings here") = [] ∧
    extract_issues (toL "X_UNKNOWN") (toL "tasks/reviews/X_UNKNOWN.md")
      (toL "no headings here") = .ok [] :=
  ⟨by decide, c10_no_headings_no_classification _ _ _ (by decide)⟩

/-- C4: classification by stem suffix.  A `_MONITORING` suffix yields
category `monitoring` with the prefix as group; `_PERFORMANCE` yields
`performance`; any other stem makes `parse_group` fail with the
unrecognized-category condition, and `extract_issues` on such a document
produces either no issues (no headings) or that same error — never output. -/
theorem c4_parse_group_classification (file_stem sourceRel text : List Char) :
    (∀ pre, file_stem = pre ++ toL "_MONITORING" →
      parse_group file_stem = .ok (pre, toL "monitoring")) ∧
    (∀ pre, file_stem = pre ++ toL "_PERFORMANCE" →
      parse_group file_stem = .ok (pre, toL "performance")) ∧
    ((¬ ∃ pre, file_stem = pre ++ toL "_MONITORING") →
     (¬ ∃ pre, file_stem = pre ++ toL "_PERFORMANCE") →
      parse_group file_stem = .error (.unrecognizedCategory file_stem) ∧
      (extract_issues file_stem sourceRel text = .ok [] ∨
        extract_issues file_stem sourceRel text =
          .error (.unrecognizedCategory file_stem))) := by
  refine ⟨?_, ?_, ?_⟩
  · rintro pre rfl
    have hs : (toL "_MONITORING").isSuffixOf (pre ++ toL "_MONITORING") = true :=
      (isSuffixOf_iff_sfx _ _).mpr (List.suffix_append pre _)
    have hlen : (toL "_MONITORING").length = 11 := by decide
    rw [parse_group, if_pos hs, ← hlen, take_prefix_of_append]
  · rintro pre rfl
    have hs : (toL "_PERFORMANCE").isSuffixOf (pre ++ toL "_PERFORMANCE") = true :=
      (isSuffixOf_iff_sfx _ _).mpr (List.suffix_append pre _)
    have hm : (toL "_MONITORING").isSuffixOf (pre ++ toL "_PERFORMANCE") = false := by
      cases h : (toL "_MONITORING").isSuffixOf (pre ++ toL "_PERFORMANCE") with
      | false => rfl
      | true =>
        exfalso
        have hx' : (toL "_MONITORING") <:+ pre ++ toL "_PERFORMANCE" :=
          (isSuffixOf_iff_sfx _ _).mp h
        have hp2 : (toL "_PERFORMANCE") <:+ pre ++ toL "_PERFORMANCE" :=
          List.suffix_append pre _
        rcases List.suffix_or_suffix_of_suffix hx' hp2 with h2 | h2
        · revert h2; decide
        · revert h2; decide
    have hlen : (toL "_PERFORMANCE").length = 12 := by decide
    rw [parse_group, if_neg (by simp [hm]), if_pos hs, ← hlen, take_prefix_of_append]
  · intro hm hp
    have hm' : (toL "_MONITORING").isSuffixOf file_stem = false := by
      cases h : (toL "_MONITORING").isSuffixOf file_stem with
      | false => rfl
      | true =>
        exfalso
        obtain ⟨t, ht⟩ := (isSuffixOf_iff_sfx _ _).mp h
        exact hm ⟨t, ht.symm⟩
    have hp' : (toL "_PERFORMANCE").isSuffixOf file_stem = false := by
      cases h : (toL "_PERFORMANCE").isSuffixOf file_stem with
      | false => rfl
      | true =>
        exfalso
        obtain ⟨t, ht⟩ := (isSuffixOf_iff_sfx _ _).mp h
        exact hp ⟨t, ht.symm⟩
    have hpg : parse_group file_stem = .error (.unrecognizedCategory file_stem) := by
      rw [parse_group, if_neg (by simp [hm']), if_neg (by simp [hp'])]
    refine ⟨hpg, ?_⟩
    by_cases hms : (findHeadings text).isEmpty
    · left
      simp [extract_issues, hms]
    · right
      simp [extract_issues, hms, hpg]

theorem c4_witness :
    (toL "INFRA_MONITORING" = toL "INFRA" ++ toL "_MONITORING") ∧
    parse_group (toL "INFRA_MONITORING") = .ok (toL "INFRA", toL "monitoring") ∧
    parse_group (toL "X_UNKNOWN") =
      .error (.unrecognizedCategory (toL "X_UNKNOWN")) ∧
    (extract_issues (toL "X_UNKNOWN") (toL "r") (toL "### 1. T\nbody") = .ok [] ∨
      extract_issues (toL "X_UNKNOWN") (toL "r") (toL "### 1. T\nbody") =
        .error (.unrecognizedCategory (toL "X_UNKNOWN"))) := by
  have hm : ¬ ∃ pre, toL "X_UNKNOWN" = pre ++ toL "_MONITORING" := by
    rintro ⟨pre, h⟩
    have := congrArg List.length h
    simp [toL] at this
  have hp : ¬ ∃ pre, toL "X_UNKNOWN" = pre ++ toL "_PERFORMANCE" := by
    rintro ⟨pre, h⟩
    have := congrArg List.length h
    simp [toL] at this
  refine ⟨by decide,
    (c4_parse_group_classification (toL "INFRA_MONITORING") (toL "r") (toL "t")).1
      (toL "INFRA") (by decide),
    ((c4_parse_group_classification (toL "X_UNKNOWN") (toL "r") (toL "### 1. T\nbody")).2.2 hm hp).1,
    ((c4_parse_group_classification (toL "X_UNKNOWN") (toL "r") (toL "### 1. T\nbody")).2.2 hm hp).2⟩


theorem charToNat_ofNat (n : Nat) (h : n < 55296) : (Char.ofNat n).toNat = n := by
  simp only [Char.ofNat, Nat.isValidChar]
  rw [dif_pos (Or.inl h)]
  simp [Char.ofNatAux, Char.toNat, UInt32.toNat, Nat.toUInt32]

theorem digitChar_toNat (d : Nat) (h : d < 10) : (digitChar d).toNat = 48 + d := by
  have h' : 48 + d < 55296 := by omega
  simpa [digitChar] using charToNat_ofNat (48 + d) h'

theorem ofDecimal_append_digit (l : List Char) (c : Char) :
    ofDecimal (l ++ [c]) = ofDecimal l * 10 + (c.toNat - 48) := by
  simp [ofDecimal, List.foldl_append]

theorem ofDecimal_toDecimalAux : ∀ fuel n, n < 10 ^ fuel → ofDecimal (toDecimalAux fuel n) = n := by
  intro fuel
  induction fuel with
  | zero =>
    intro n hn
    have h0 : n = 0 := by simpa using hn
    subst h0
    simp [toDecimalAux, ofDecimal]
  | succ f ih =>
    intro n hn
    rw [toDecimalAux]
    by_cases h10 : n < 10
    · rw [if_pos h10]
      show ofDecimal [digitChar n] = n
      simp [ofDecimal]
      rw [digitChar_toNat n h10]
      omega
    · rw [if_neg h10]
      rw [ofDecimal_append_digit]
      have hdiv : n / 10 < 10 ^ f := by
        rw [Nat.div_lt_iff_lt_mul (by omega)]
        calc n < 10 ^ (f + 1) := hn
          _ = 10 ^ f * 10 := by rw [pow_succ]
      rw [ih (n / 10) hdiv, digitChar_toNat (n % 10) (Nat.mod_lt n (by omega))]
      omega

theorem ofDecimal_toDecimal (n : Nat) : ofDecimal (toDecimal n) = n := by
  apply ofDecimal_toDecimalAux
  calc n < 10 ^ n := Nat.lt_pow_self (by omega) n
    _ ≤ 10 ^ (n + 1) := Nat.pow_le_pow_right (by omega) (by omega)

theorem toDecimal_injective : Function.Injective toDecimal := by
  intro a b h
  have h2 := congrArg ofDecimal h
  simpa [ofDecimal_toDecimal] using h2

theorem toDecimal_ne_nil (n : Nat) : toDecimal n ≠ [] := by
  rw [toDecimal, toDecimalAux]
  by_cases h : n < 10 <;> simp [h]

theorem candName_injective (base : List Char) : Function.Injective (candName base) := by
  have hlen : ∀ k, 1 ≤ (toDecimal k).length := by
    intro k
    cases h : toDecimal k with
    | nil => exact absurd h (toDecimal_ne_nil k)
    | cons a t => simp
  intro k1 k2 h
  match k1, k2 with
  | 0, 0 => rfl
  | 0, j + 1 =>
    exfalso
    rw [candName, candName] at h
    have h2 := congrArg List.length h
    have := hlen (j + 1)
    simp [toL] at h2
  | j + 1, 0 =>
    exfalso
    rw [candName, candName] at h
    have h2 := congrArg List.length h
    have := hlen (j + 1)
    simp [toL] at h2
  | j1 + 1, j2 + 1 =>
    rw [candName, candName] at h
    have h2 := List.append_cancel_right h
    have h3 := List.append_cancel_left h2
    have h4 := toDecimal_injective h3
    omega

theorem exists_free_candidate (existing : List (List Char)) (base : List Char) :
    ∃ k, k ≤ existing.length ∧ candName base k ∉ existing := by
  by_contra hall
  push_neg at hall
  have hsub : (Finset.range (existing.length + 1)).image (candName base) ⊆
      existing.toFinset := by
    intro x hx
    rw [Finset.mem_image] at hx
    obtain ⟨k, hk, rfl⟩ := hx
    rw [Finset.mem_range] at hk
    exact List.mem_toFinset.mpr (hall k (by omega))
  have hcard := Finset.card_le_card hsub
  rw [Finset.card_image_of_injective _ (candName_injective base), Finset.card_range] at hcard
  have hle := existing.toFinset_card_le
  omega

theorem resolveAux_eq_of_first (existing : List (List Char)) (base : List Char) :
    ∀ fuel k j, k ≤ j → j ≤ k + fuel →
      (∀ i, k ≤ i → i < j → candName base i ∈ existing) →
      candName base j ∉ existing →
      resolveAux existing base fuel k = candName base j := by
  intro fuel
  induction fuel with
  | zero =>
    intro k j h1 h2 _ _
    have hkj : j = k := by omega
    subst hkj
    rfl
  | succ f ih =>
    intro k j h1 h2 hall hfree
    by_cases hk : candName base k ∈ existing
    · have hkj : k ≠ j := by
        rintro rfl
        exact hfree hk
      rw [resolveAux, if_pos hk]
      exact ih (k + 1) j (by omega) (by omega) (fun i hi1 hi2 => hall i (by omega) hi2) hfree
    · have hkj : j = k := by
        by_contra hne
        exact hk (hall k le_rfl (by omega))
      subst hkj
      rw [resolveAux, if_neg hk]

theorem resolveFilename_spec (existing : List (List Char)) (base : List Char) :
    ∃ j, resolveFilename existing base = candName base j ∧
      candName base j ∉ existing ∧ ∀ i, i < j → candName base i ∈ existing := by
  obtain ⟨k0, hk0, hfree0⟩ := exists_free_candidate existing base
  have hex : ∃ k, candName base k ∉ existing := ⟨k0, hfree0⟩
  classical
  refine ⟨Nat.find hex, ?_, Nat.find_spec hex, ?_⟩
  · apply resolveAux_eq_of_first existing base (existing.length + 1) 0 (Nat.find hex)
    · omega
    · have := Nat.find_min' hex hfree0
      omega
    · intro i _ hi
      by_contra hmem
      exact absurd (Nat.find_min' hex hmem) (by omega)
    · exact Nat.find_spec hex
  · intro i hi
    by_contra hmem
    exact absurd (Nat.find_min' hex hmem) (by omega)

theorem resolveFilename_not_mem (existing : List (List Char)) (base : List Char) :
    resolveFilename existing base ∉ existing := by
  obtain ⟨j, hj, hfree, _⟩ := resolveFilename_spec existing base
  rw [hj]
  exact hfree

/-- C5: collision handling in `write_issue`.  If the base name is free, the
first issue is written to `base.md`; a second write with the same base name
never lands on an existing file (in particular not on `base.md`), and when
`base_1.md` was not already taken it is exactly `base_1.md` that is used. -/
theorem c5_collision_keeps_first_file (existing : List (List Char)) (base : List Char)
    (hfree : candName base 0 ∉ existing) :
    resolveFilename existing base = candName base 0 ∧
    resolveFilename (candName base 0 :: existing) base ∉ candName base 0 :: existing ∧
    (candName base 1 ∉ existing →
      resolveFilename (candName base 0 :: existing) base = candName base 1) := by
  refine ⟨?_, resolveFilename_not_mem _ _, ?_⟩
  · exact resolveAux_eq_of_first existing base (existing.length + 1) 0 0 le_rfl (by omega)
      (fun i h1 h2 => absurd h2 (by omega)) hfree
  · intro h1free
    apply resolveAux_eq_of_first (candName base 0 :: existing) base
      ((candName base 0 :: existing).length + 1) 0 1 (by omega) (by simp)
    · intro i _ hi
      have hi0 : i = 0 := by omega
      subst hi0
      exact List.mem_cons_self _ _
    · intro hmem
      rcases List.mem_cons.mp hmem with h | h
      · exact absurd (candName_injective base h) (by omega)
      · exact h1free h

theorem c5_witness :
    (candName (toL "001_INFRA_LEAK") 0 ∉ ([] : List (List Char))) ∧
    resolveFilename [] (toL "001_INFRA_LEAK") = candName (toL "001_INFRA_LEAK") 0 ∧
    resolveFilename [candName (toL "001_INFRA_LEAK") 0] (toL "001_INFRA_LEAK") ∉
      [candName (toL "001_INFRA_LEAK") 0] ∧
    resolveFilename [candName (toL "001_INFRA_LEAK") 0] (toL "001_INFRA_LEAK") =
      candName (toL "001_INFRA_LEAK") 1 := by
  have h := c5_collision_keeps_first_file [] (toL "001_INFRA_LEAK") (by simp)
  exact ⟨by simp, h.1, h.2.1, h.2.2 (by simp)⟩

theorem write_issue_category (st : (List Char → Nat) × (List Char → List (List Char)))
    (i : Issue) : (write_issue st i).2.1.category = i.category := rfl

theorem write_issue_sequence (st : (List Char → Nat) × (List Char → List (List Char)))
    (i : Issue) : (write_issue st i).2.1.sequence = st.1 i.category + 1 := rfl

theorem write_issue_counters (st : (List Char → Nat) × (List Char → List (List Char)))
    (i : Issue) :
    (write_issue st i).1.1 = fun c => if c = i.category then st.1 i.category + 1 else st.1 c := rfl

theorem processIssues_sequences (cat : List Char) :
    ∀ (issues : List Issue) (K : List Char → Nat) (D : List Char → List (List Char)),
      ((processIssues (K, D) issues).filter (fun p => p.1.category == cat)).map
          (fun p => p.1.sequence)
        = List.range' (K cat + 1) (issues.countP (fun i => i.category == cat)) := by
  intro issues
  induction issues with
  | nil =>
    intro K D
    simp [processIssues]
  | cons i rest ih =>
    intro K D
    rw [processIssues, List.filter_cons, List.countP_cons]
    have hpair : (write_issue (K, D) i).1 = ((write_issue (K, D) i).1.1, (write_issue (K, D) i).1.2) := rfl
    by_cases hc : i.category = cat
    · have hcond : ((write_issue (K, D) i).2.1.category == cat) = true := by
        rw [write_issue_category]
        exact beq_iff_eq.mpr hc
      rw [hcond]
      simp only [if_true]
      rw [List.map_cons, write_issue_sequence]
      have hcnt : (decide (i.category == cat) = true) = True := by
        simp [hc]
      have ihx := ih (write_issue (K, D) i).1.1 (write_issue (K, D) i).1.2
      rw [hpair] at *
      rw [ihx]
      rw [write_issue_counters]
      simp only [hc, if_pos rfl]
      have hrange : List.range' (K cat + 1) (rest.countP (fun i => i.category == cat) + 1)
          = (K cat + 1) :: List.range' (K cat + 1 + 1) (rest.countP (fun i => i.category == cat)) :=
        List.range'_succ _ _ 1
      simp [hc, hrange]
    · have hcond : ((write_issue (K, D) i).2.1.category == cat) = false := by
        rw [write_issue_category]
        simp [hc]
      rw [hcond]
      simp only [Bool.false_eq_true, if_false]
      have ihx := ih (write_issue (K, D) i).1.1 (write_issue (K, D) i).1.2
      rw [hpair] at *
      rw [ihx]
      rw [write_issue_counters]
      have hne : ¬ (cat = i.category) := fun hx => hc hx.symm
      simp [hne, hc]

/-- C1: over any run, for each category the sequence values handed out to the
issues of that category (in processing order) are exactly 1, 2, …, N where N
is that category's total issue count: each per-category counter starts at 0
and is bumped once per issue, the new value becoming the issue's
`sequence`. -/
theorem c1_sequences_per_category (issues : List Issue) (cat : List Char) :
    ((runPipeline issues).filter (fun p => p.1.category == cat)).map (fun p => p.1.sequence)
      = List.range' 1 (issues.countP (fun i => i.category == cat)) := by
  have h := processIssues_sequences cat issues (fun _ => 0) (fun _ => [])
  simpa [runPipeline] using h


theorem head?_dropWhile_not (p : Char → Bool) :
    ∀ (l : List Char) (b : Char), (l.dropWhile p).head? = some b → p b = false := by
  intro l
  induction l with
  | nil =>
    intro b h
    simp [List.dropWhile] at h
  | cons a rest ih =>
    intro b h
    rw [List.dropWhile_cons] at h
    by_cases hp : p a
    · rw [if_pos hp] at h
      exact ih b h
    · rw [if_neg hp] at h
      simp at h
      subst h
      exact Bool.eq_false_iff.mpr hp

theorem subNonAlnumAux_mem :
    ∀ fuel (l : List Char) c, c ∈ subNonAlnumAux fuel l → isAsciiAlnum c = true ∨ c = '_' := by
  intro fuel
  induction fuel with
  | zero =>
    intro l c hc
    simp [subNonAlnumAux] at hc
  | succ f ih =>
    intro l c hc
    match l with
    | [] => simp [subNonAlnumAux] at hc
    | a :: rest =>
      rw [subNonAlnumAux] at hc
      by_cases ha : isAsciiAlnum a
      · rw [if_pos ha] at hc
        rcases List.mem_cons.mp hc with h | h
        · subst h
          exact Or.inl ha
        · exact ih _ c h
      · rw [if_neg ha] at hc
        rcases List.mem_cons.mp hc with h | h
        · exact Or.inr h
        · exact ih _ c h

theorem collapseUnderscoreAux_head :
    ∀ fuel (l : List Char) a, (collapseUnderscoreAux fuel l).head? = some a → l.head? = some a := by
  intro fuel l a h
  match fuel, l with
  | 0, _ => simp [collapseUnderscoreAux] at h
  | f + 1, [] => simp [collapseUnderscoreAux] at h
  | f + 1, c :: rest =>
    rw [collapseUnderscoreAux] at h
    by_cases hc : c = '_'
    · rw [if_pos hc] at h
      simp only [List.head?_cons, Option.some.injEq] at h ⊢
      rw [hc]
      exact h
    · rw [if_neg hc] at h
      simp only [List.head?_cons, Option.some.injEq] at h ⊢
      exact h

theorem collapseUnderscoreAux_chain :
    ∀ fuel (l : List Char),
      List.Chain' (fun a b => ¬(a = '_' ∧ b = '_')) (collapseUnderscoreAux fuel l) := by
  intro fuel
  induction fuel with
  | zero =>
    intro l
    simp [collapseUnderscoreAux]
  | succ f ih =>
    intro l
    match l with
    | [] => simp [collapseUnderscoreAux]
    | c :: rest =>
      rw [collapseUnderscoreAux]
      by_cases hc : c = '_'
      · rw [if_pos hc]
        refine List.chain'_cons'.mpr ⟨?_, ih _⟩
        intro y hy
        have hy' := collapseUnderscoreAux_head _ _ _ hy
        have hnp := head?_dropWhile_not _ _ _ hy'
        intro hand
        rw [hand.2] at hnp
        simp at hnp
      · rw [if_neg hc]
        refine List.chain'_cons'.mpr ⟨?_, ih _⟩
        intro y _
        intro hand
        exact hc hand.1

theorem collapseUnderscoreAux_mem :
    ∀ fuel (l : List Char) c, c ∈ collapseUnderscoreAux fuel l → c = '_' ∨ c ∈ l := by
  intro fuel
  induction fuel with
  | zero =>
    intro l c hc
    simp [collapseUnderscoreAux] at hc
  | succ f ih =>
    intro l c hc
    match l with
    | [] => simp [collapseUnderscoreAux] at hc
    | a :: rest =>
      rw [collapseUnderscoreAux] at hc
      by_cases ha : a = '_'
      · rw [if_pos ha] at hc
        rcases List.mem_cons.mp hc with h | h
        · exact Or.inl h
        · rcases ih _ c h with h2 | h2
          · exact Or.inl h2
          · exact Or.inr (List.mem_cons_of_mem a ((List.dropWhile_sublist _).subset h2))
      · rw [if_neg ha] at hc
        rcases List.mem_cons.mp hc with h | h
        · subst h
          exact Or.inr (List.mem_cons_self _ _)
        · rcases ih _ c h with h2 | h2
          · exact Or.inl h2
          · exact Or.inr (List.mem_cons_of_mem a h2)

theorem pyStripWith_sublist (p : Char → Bool) (l : List Char) :
    List.Sublist (pyStripWith p l) l := by
  have h1 := List.rdropWhile_prefix p (l.dropWhile p)
  exact (h1.sublist).trans ((List.dropWhile_suffix p).sublist)

theorem pyStripWith_chain (p : Char → Bool) (l : List Char) (R : Char → Char → Prop)
    (h : List.Chain' R l) : List.Chain' R (pyStripWith p l) := by
  have h1 := List.rdropWhile_prefix p (l.dropWhile p)
  exact List.Chain'.prefix (h.suffix (List.dropWhile_suffix p)) h1

theorem pyStripWith_head (p : Char → Bool) (l : List Char) (a : Char)
    (h : (pyStripWith p l).head? = some a) : p a = false := by
  rw [pyStripWith] at h
  obtain ⟨t, ht⟩ := List.rdropWhile_prefix p (l.dropWhile p)
  cases hres : (l.dropWhile p).rdropWhile p with
  | nil => rw [hres] at h; simp at h
  | cons b u =>
    rw [hres] at h
    simp only [List.head?_cons, Option.some.injEq] at h
    subst h
    rw [hres] at ht
    have hhead : (l.dropWhile p).head? = some b := by
      rw [← ht]
      simp
    exact head?_dropWhile_not p l b hhead

theorem pyStripWith_getLast (p : Char → Bool) (l : List Char) (a : Char)
    (h : (pyStripWith p l).getLast? = some a) : p a = false := by
  rw [pyStripWith, List.rdropWhile] at h
  rw [List.getLast?_reverse] at h
  exact head?_dropWhile_not p _ a h

theorem pyToUpperChar_eq_underscore (c : Char) (h : pyToUpperChar c = '_') : c = '_' := by
  rw [pyToUpperChar] at h
  by_cases hr : 97 ≤ c.toNat ∧ c.toNat ≤ 122
  · exfalso
    rw [if_pos hr] at h
    have h2 := congrArg Char.toNat h
    rw [charToNat_ofNat (c.toNat - 32) (by omega)] at h2
    have : ('_').toNat = 95 := by decide
    omega
  · rw [if_neg hr] at h
    exact h

theorem isAsciiAlnum_ranges (c : Char) (h : isAsciiAlnum c = true) :
    (48 ≤ c.toNat ∧ c.toNat ≤ 57) ∨ (65 ≤ c.toNat ∧ c.toNat ≤ 90) ∨
      (97 ≤ c.toNat ∧ c.toNat ≤ 122) := by
  rw [isAsciiAlnum] at h
  simp only [Bool.or_eq_true, Bool.and_eq_true, decide_eq_true_eq] at h
  tauto

theorem pyToUpperChar_class (c : Char) (h : isAsciiAlnum c = true) :
    (65 ≤ (pyToUpperChar c).toNat ∧ (pyToUpperChar c).toNat ≤ 90) ∨
      (48 ≤ (pyToUpperChar c).toNat ∧ (pyToUpperChar c).toNat ≤ 57) := by
  have hr2 := isAsciiAlnum_ranges c h
  rw [pyToUpperChar]
  by_cases hr : 97 ≤ c.toNat ∧ c.toNat ≤ 122
  · rw [if_pos hr]
    rw [charToNat_ofNat (c.toNat - 32) (by omega)]
    left
    omega
  · rw [if_neg hr]
    rcases hr2 with h2 | h2 | h2
    · right
      exact h2
    · left
      exact h2
    · exact absurd h2 hr

theorem chain_of_no_underscore :
    ∀ (l : List Char), '_' ∉ l → List.Chain' (fun a b => ¬(a = '_' ∧ b = '_')) l := by
  intro l
  induction l with
  | nil =>
    intro _
    simp
  | cons a rest ih =>
    intro h
    refine List.chain'_cons'.mpr ⟨?_, ih (fun hx => h (List.mem_cons_of_mem a hx))⟩
    intro y _ hand
    apply h
    rw [← hand.1]
    exact List.mem_cons_self a rest

/-- C6: for every input, `sanitize_title` returns a nonempty string made only
of uppercase ASCII letters, digits and underscores, with no two adjacent
underscores and no underscore at either end (falling back to the literal
`UNTITLED` when the normal form would be empty); the function is total. -/
theorem c6_sanitize_title_normal_form (v : List Char) :
    (∀ c ∈ sanitize_title v,
        (65 ≤ c.toNat ∧ c.toNat ≤ 90) ∨ (48 ≤ c.toNat ∧ c.toNat ≤ 57) ∨ c = '_') ∧
    List.Chain' (fun a b => ¬(a = '_' ∧ b = '_')) (sanitize_title v) ∧
    (∀ a, (sanitize_title v).head? = some a → a ≠ '_') ∧
    (∀ a, (sanitize_title v).getLast? = some a → a ≠ '_') ∧
    sanitize_title v ≠ [] := by
  simp only [sanitize_title]
  by_cases hempty :
      (pyStripWith (fun c => c = '_')
          (collapseUnderscore (subNonAlnum (pyStrip v)))).map pyToUpperChar = []
  · rw [if_pos hempty]
    exact ⟨by decide, chain_of_no_underscore _ (by decide), by decide, by decide, by decide⟩
  · rw [if_neg hempty]
    have hchainY : List.Chain' (fun a b => ¬(a = '_' ∧ b = '_'))
        (collapseUnderscore (subNonAlnum (pyStrip v))) := collapseUnderscoreAux_chain _ _
    have hchain3 : List.Chain' (fun a b => ¬(a = '_' ∧ b = '_'))
        (pyStripWith (fun c => c = '_') (collapseUnderscore (subNonAlnum (pyStrip v)))) :=
      pyStripWith_chain _ _ _ hchainY
    refine ⟨?_, ?_, ?_, ?_, hempty⟩
    · intro c hc
      rw [List.mem_map] at hc
      obtain ⟨b, hb, rfl⟩ := hc
      have hbY := (pyStripWith_sublist _ _).subset hb
      rcases collapseUnderscoreAux_mem _ _ _ hbY with hb2 | hb2
      · subst hb2
        right
        right
        decide
      · rcases subNonAlnumAux_mem _ _ _ hb2 with hb3 | hb3
        · rcases pyToUpperChar_class b hb3 with h | h
          · exact Or.inl h
          · exact Or.inr (Or.inl h)
        · subst hb3
          right
          right
          decide
    · rw [List.chain'_map]
      refine hchain3.imp ?_
      intro a b hab hand
      exact hab ⟨pyToUpperChar_eq_underscore a hand.1, pyToUpperChar_eq_underscore b hand.2⟩
    · intro a ha
      rw [List.head?_map] at ha
      cases hh : (pyStripWith (fun c => c = '_')
          (collapseUnderscore (subNonAlnum (pyStrip v)))).head? with
      | none => rw [hh] at ha; simp at ha
      | some b =>
        rw [hh] at ha
        simp at ha
        subst ha
        have hb := pyStripWith_head _ _ _ hh
        intro hcon
        have := pyToUpperChar_eq_underscore b hcon
        rw [this] at hb
        simp at hb
    · intro a ha
      rw [List.getLast?_map] at ha
      cases hh : (pyStripWith (fun c => c = '_')
          (collapseUnderscore (subNonAlnum (pyStrip v)))).getLast? with
      | none => rw [hh] at ha; simp at ha
      | some b =>
        rw [hh] at ha
        simp at ha
        subst ha
        have hb := pyStripWith_getLast _ _ _ hh
        intro hcon
        have := pyToUpperChar_eq_underscore b hcon
        rw [this] at hb
        simp at hb


theorem matchPriorityAt_nil : matchPriorityAt [] = none := by decide

theorem searchPriority_none_iff :
    ∀ (l : List Char), searchPriority l = none ↔ ∀ i, matchPriorityAt (l.drop i) = none := by
  intro l
  induction l with
  | nil =>
    simp [searchPriority, matchPriorityAt_nil]
  | cons c rest ih =>
    rw [searchPriority]
    cases h : matchPriorityAt (c :: rest) with
    | some g =>
      constructor
      · intro hg
        exact absurd hg (by simp)
      · intro hall
        have h0 := hall 0
        rw [List.drop_zero, h] at h0
        exact absurd h0 (by simp)
    | none =>
      rw [ih]
      constructor
      · intro hall i
        cases i with
        | zero =>
          rw [List.drop_zero]
          exact h
        | succ j =>
          rw [List.drop_succ_cons]
          exact hall j
      · intro hall j
        have := hall (j + 1)
        rw [List.drop_succ_cons] at this
        exact this

theorem searchPriority_some_iff :
    ∀ (l : List Char) (g : List Char), searchPriority l = some g ↔
      ∃ i, matchPriorityAt (l.drop i) = some g ∧
        ∀ j, j < i → matchPriorityAt (l.drop j) = none := by
  intro l
  induction l with
  | nil =>
    intro g
    simp [searchPriority, matchPriorityAt_nil]
  | cons c rest ih =>
    intro g
    rw [searchPriority]
    cases h : matchPriorityAt (c :: rest) with
    | some g0 =>
      constructor
      · intro hg
        refine ⟨0, ?_, by omega⟩
        rw [List.drop_zero, h]
        exact hg
      · rintro ⟨i, hi, hmin⟩
        cases i with
        | zero =>
          rw [List.drop_zero, h] at hi
          exact hi
        | succ j =>
          have h0 := hmin 0 (by omega)
          rw [List.drop_zero, h] at h0
          exact absurd h0 (by simp)
    | none =>
      rw [ih g]
      constructor
      · rintro ⟨i, hi, hmin⟩
        refine ⟨i + 1, ?_, ?_⟩
        · rw [List.drop_succ_cons]
          exact hi
        · intro j hj
          cases j with
          | zero =>
            rw [List.drop_zero]
            exact h
          | succ j2 =>
            rw [List.drop_succ_cons]
            exact hmin j2 (by omega)
      · rintro ⟨i, hi, hmin⟩
        cases i with
        | zero =>
          rw [List.drop_zero, h] at hi
          exact absurd hi (by simp)
        | succ j =>
          rw [List.drop_succ_cons] at hi
          refine ⟨j, hi, ?_⟩
          intro j2 hj2
          have := hmin (j2 + 1) (by omega)
          rw [List.drop_succ_cons] at this
          exact this

/-- C9 counterexample: on the trimmed span `**Priority:**\nHigh` the label's
own line has no text after it, so under the claim's reading (free text to the
end of the label's line) no priority field occurs and `priority` should be
absent; the script nevertheless extracts `High` from the following line,
because `\s*` in `PRIORITY_PATTERN` crosses the newline. -/
theorem c9_counterexample_newline_crossing :
    extractPriority (toL "**Priority:**\nHigh") = some (toL "High") ∧
    specFirstPriority (toL "**Priority:**\nHigh") = none := by
  decide

/-- C9 (amended): `priority` is determined by the leftmost position of the
span at which `PRIORITY_PATTERN` matches, where after the bold label the
matcher skips greedy whitespace that may span line breaks and then captures at
least one non-newline character up to the end of that line; the trimmed
capture becomes `priority`, and `priority` is absent exactly when no position
matches. -/
theorem c9_priority_leftmost (sec : List Char) :
    (extractPriority sec = none ↔ ∀ i, matchPriorityAt (sec.drop i) = none) ∧
    (∀ v, extractPriority sec = some v ↔
      ∃ i g, matchPriorityAt (sec.drop i) = some g ∧ v = pyStrip g ∧
        ∀ j, j < i → matchPriorityAt (sec.drop j) = none) := by
  constructor
  · rw [extractPriority, Option.map_eq_none']
    exact searchPriority_none_iff sec
  · intro v
    rw [extractPriority, Option.map_eq_some']
    constructor
    · rintro ⟨g, hg, rfl⟩
      obtain ⟨i, hi, hmin⟩ := (searchPriority_some_iff sec g).mp hg
      exact ⟨i, g, hi, rfl, hmin⟩
    · rintro ⟨i, g, hi, rfl, hmin⟩
      exact ⟨g, (searchPriority_some_iff sec g).mpr ⟨i, hi, hmin⟩, rfl⟩

theorem c9_priority_leftmost_witness :
    matchPriorityAt ((toL "no label here").drop 0) = none :=
  (c9_priority_leftmost (toL "no label here")).1.mp (by decide) 0


theorem escapeQuotes_cons (c : Char) (rest : List Char) :
    escapeQuotes (c :: rest) = (if c = '"' then ['\\', '"'] else [c]) ++ escapeQuotes rest := by
  simp [escapeQuotes]

theorem escapeQuotes_no_newline (v : List Char) (h : '\n' ∉ v) : '\n' ∉ escapeQuotes v := by
  intro hmem
  rw [escapeQuotes, List.mem_flatMap] at hmem
  obtain ⟨c, hc, hmem2⟩ := hmem
  by_cases hq : c = '"'
  · rw [if_pos hq] at hmem2
    rcases List.mem_cons.mp hmem2 with h2 | h2
    · exact absurd h2 (by decide)
    · rcases List.mem_cons.mp h2 with h3 | h3
      · exact absurd h3 (by decide)
      · simp at h3
  · rw [if_neg hq] at hmem2
    rcases List.mem_cons.mp hmem2 with h2 | h2
    · rw [← h2] at hc
      exact h hc
    · simp at h2

theorem escapeQuotes_head_ne (v : List Char) (b : Char)
    (h : (escapeQuotes v).head? = some b) : b ≠ '"' := by
  cases v with
  | nil => simp [escapeQuotes] at h
  | cons c rest =>
    rw [escapeQuotes_cons] at h
    by_cases hq : c = '"'
    · rw [if_pos hq] at h
      simp only [List.cons_append, List.head?_cons, Option.some.injEq] at h
      rw [← h]
      decide
    · rw [if_neg hq] at h
      simp only [List.cons_append, List.head?_cons, Option.some.injEq] at h
      rw [← h]
      exact hq

theorem unescape_escape (v : List Char) : unescapeQuotes (escapeQuotes v) = v := by
  induction v with
  | nil => rfl
  | cons c rest ih =>
    rw [escapeQuotes_cons]
    by_cases hq : c = '"'
    · subst hq
      rw [if_pos rfl]
      show unescapeQuotes ('\\' :: '"' :: escapeQuotes rest) = '"' :: rest
      rw [unescapeQuotes, if_pos ⟨rfl, rfl⟩, ih]
    · rw [if_neg hq]
      show unescapeQuotes (c :: escapeQuotes rest) = c :: rest
      cases hE : escapeQuotes rest with
      | nil =>
        have hrest : rest = [] := by
          cases rest with
          | nil => rfl
          | cons d tail =>
            rw [escapeQuotes_cons] at hE
            by_cases hd : d = '"'
            · rw [if_pos hd] at hE
              simp at hE
            · rw [if_neg hd] at hE
              simp at hE
        subst hrest
        rfl
      | cons b tail =>
        have hb : b ≠ '"' := escapeQuotes_head_ne rest b (by rw [hE]; rfl)
        rw [unescapeQuotes, if_neg (fun hand => hb hand.2), ← hE, ih]

theorem splitNl_cons_newline (b : List Char) : splitNl ('\n' :: b) = [] :: splitNl b := by
  rw [splitNl, if_pos rfl]

theorem splitNl_append_newline (a b : List Char) (ha : '\n' ∉ a) :
    splitNl (a ++ '\n' :: b) = a :: splitNl b := by
  induction a with
  | nil =>
    rw [List.nil_append]
    exact splitNl_cons_newline b
  | cons c arest ih =>
    have hc : c ≠ '\n' := fun h => ha (by rw [h]; exact List.mem_cons_self _ _)
    rw [List.cons_append, splitNl, if_neg hc, ih (fun h => ha (List.mem_cons_of_mem c h))]

theorem splitNl_joinNl_append :
    ∀ (lines : List (List Char)) (suffix : List Char), lines ≠ [] →
      (∀ l ∈ lines, '\n' ∉ l) →
      splitNl (joinNl lines ++ '\n' :: suffix) = lines ++ splitNl suffix := by
  intro lines
  induction lines with
  | nil =>
    intro suffix h _
    exact absurd rfl h
  | cons x rest ih =>
    intro suffix _ hnl
    cases rest with
    | nil =>
      rw [joinNl, splitNl_append_newline x suffix (hnl x (List.mem_cons_self _ _))]
      rfl
    | cons y rest2 =>
      rw [joinNl]
      simp only [List.append_assoc, List.cons_append]
      rw [splitNl_append_newline x _ (hnl x (List.mem_cons_self _ _))]
      rw [ih suffix (by simp) (fun l hl => hnl l (List.mem_cons_of_mem x hl))]
      rfl

theorem toDecimalAux_digits :
    ∀ fuel n c, c ∈ toDecimalAux fuel n → ∃ d, d < 10 ∧ c = digitChar d := by
  intro fuel
  induction fuel with
  | zero =>
    intro n c hc
    simp [toDecimalAux] at hc
  | succ f ih =>
    intro n c hc
    rw [toDecimalAux] at hc
    by_cases h10 : n < 10
    · rw [if_pos h10] at hc
      rcases List.mem_cons.mp hc with h | h
      · exact ⟨n, h10, h⟩
      · simp at h
    · rw [if_neg h10] at hc
      rcases List.mem_append.mp hc with h | h
      · exact ih _ c h
      · rcases List.mem_cons.mp h with h2 | h2
        · exact ⟨n % 10, Nat.mod_lt n (by omega), h2⟩
        · simp at h2

theorem toDecimal_no_newline (n : Nat) : '\n' ∉ toDecimal n := by
  intro h
  obtain ⟨d, hd, he⟩ := toDecimalAux_digits _ _ _ h
  have h2 := congrArg Char.toNat he
  rw [digitChar_toNat d hd] at h2
  have h3 : ('\n').toNat = 10 := by decide
  omega

theorem kvLine_eq (k v : List Char) :
    kvLine k v = (k ++ toL ": \"") ++ (escapeQuotes v ++ toL "\"") := by
  rw [kvLine, List.append_assoc]

theorem kvLine_no_newline (k v : List Char) (hk : '\n' ∉ k) (hv : '\n' ∉ v) :
    '\n' ∉ kvLine k v := by
  rw [kvLine_eq]
  intro h
  rcases List.mem_append.mp h with h2 | h2
  · rcases List.mem_append.mp h2 with h3 | h3
    · exact hk h3
    · exact absurd h3 (by decide)
  · rcases List.mem_append.mp h2 with h3 | h3
    · exact escapeQuotes_no_newline v hv h3
    · exact absurd h3 (by decide)

theorem kvLine_getLast (k v : List Char) : (kvLine k v).getLast? = some '"' := by
  rw [kvLine]
  have h : toL "\"" = ['"'] := rfl
  rw [h]
  exact List.getLast?_concat _

theorem kvLine_beq_dashes (k v : List Char) : ((kvLine k v) == toL "---") = false := by
  rw [beq_eq_false_iff_ne]
  intro he
  have h1 := kvLine_getLast k v
  rw [he] at h1
  simp [toL] at h1

theorem isPrefixOf_kvLine (k v : List Char) :
    ((k ++ toL ": \"").isPrefixOf (kvLine k v)) = true := by
  rw [kvLine_eq]
  simp [ List.isPrefixOf_iff_prefix]

theorem isPrefixOf_append_false (q P X : List Char) (h1 : ¬ q <+: P) (h2 : ¬ P <+: q) :
    (q.isPrefixOf (P ++ X)) = false := by
  cases hb : q.isPrefixOf (P ++ X) with
  | false => rfl
  | true =>
    exfalso
    have hq : q <+: P ++ X := by
      have := hb
      rw [ List.isPrefixOf_iff_prefix] at this
      exact this
    have hP : P <+: P ++ X := List.prefix_append P X
    rcases List.prefix_or_prefix_of_prefix hq hP with h | h
    · exact h1 h
    · exact h2 h

theorem key_mismatch (kq kl v : List Char)
    (h1 : ¬ (kq ++ toL ": \"") <+: (kl ++ toL ": \""))
    (h2 : ¬ (kl ++ toL ": \"") <+: (kq ++ toL ": \"")) :
    ((kq ++ toL ": \"").isPrefixOf (kvLine kl v)) = false := by
  rw [kvLine_eq]
  exact isPrefixOf_append_false _ _ _ h1 h2

theorem takeWhile_until_dashes :
    ∀ (kvs : List (List Char)) (tail : List (List Char)),
      (∀ l ∈ kvs, (l == toL "---") = false) →
      (kvs ++ toL "---" :: tail).takeWhile (fun line => !(line == toL "---")) = kvs := by
  intro kvs
  induction kvs with
  | nil =>
    intro tail _
    rw [List.nil_append, List.takeWhile_cons]
    simp
  | cons x rest ih =>
    intro tail h
    rw [List.cons_append, List.takeWhile_cons]
    have hx := h x (List.mem_cons_self _ _)
    rw [hx]
    simp only [Bool.not_false, if_true]
    rw [ih tail (fun l hl => h l (List.mem_cons_of_mem x hl))]

theorem find?_key_in_block (key v : List Char) :
    ∀ (B1 : List (List Char)) (B2 : List (List Char)),
      (∀ L ∈ B1, ((key ++ toL ": \"").isPrefixOf L) = false) →
      (B1 ++ kvLine key v :: B2).find? (fun line => (key ++ toL ": \"").isPrefixOf line)
        = some (kvLine key v) := by
  intro B1
  induction B1 with
  | nil =>
    intro B2 _
    rw [List.nil_append]
    exact List.find?_cons_of_pos _ (isPrefixOf_kvLine key v)
  | cons L B1' ih =>
    intro B2 hneg
    rw [List.cons_append, List.find?_cons_of_neg _ (by rw [hneg L (List.mem_cons_self _ _)]; simp)]
    exact ih B2 (fun L2 h2 => hneg L2 (List.mem_cons_of_mem _ h2))

theorem parseLine_kvLine (key v : List Char) :
    (kvLine key v).drop (key.length + 3) = escapeQuotes v ++ ['"'] := by
  rw [kvLine_eq]
  have hlen : key.length + 3 = (key ++ toL ": \"").length := by
    have h3 : (toL ": \"").length = 3 := rfl
    rw [List.length_append, h3]
  rw [hlen, List.drop_left]
  rfl

theorem specParse_of_block (doc key v : List Char) (B1 B2 : List (List Char))
    (hb : metaBlock doc = B1 ++ kvLine key v :: B2)
    (hneg : ∀ L ∈ B1, ((key ++ toL ": \"").isPrefixOf L) = false) :
    specParseMetaField doc key = some v := by
  rw [specParseMetaField, hb, find?_key_in_block key v B1 B2 hneg]
  show (some (kvLine key v)).bind _ = some v
  rw [Option.some_bind]
  simp only [parseLine_kvLine key v]
  rw [List.getLast?_concat, if_pos rfl, List.dropLast_concat, unescape_escape]

/-- C7: round-trip of the metadata block.  For an issue as the pipeline
builds them (no extra frontmatter, no newline inside any serialized field
value), parsing the `key: "value"` lines between the two `---` delimiters of
the serialized document — unescaping internal quotes — recovers exactly the
title, category, priority (the empty string standing for an absent one),
issue_index and sequence used to produce it, the two numeric fields decoding
back to the original numbers. -/
theorem c7_frontmatter_roundtrip (iss : Issue)
    (hextra : iss.extra_frontmatter = [])
    (ht : '\n' ∉ iss.title) (hg : '\n' ∉ iss.group) (hc : '\n' ∉ iss.category)
    (hp : '\n' ∉ iss.priority.getD []) (hst : '\n' ∉ iss.status)
    (hsr : '\n' ∉ iss.sourceRel) :
    specParseMetaField (documentOf iss) (toL "title") = some iss.title ∧
    specParseMetaField (documentOf iss) (toL "category") = some iss.category ∧
    specParseMetaField (documentOf iss) (toL "priority") = some (iss.priority.getD []) ∧
    specParseMetaField (documentOf iss) (toL "issue_index")
      = some (toDecimal iss.source_issue_index) ∧
    specParseMetaField (documentOf iss) (toL "sequence") = some (toDecimal iss.sequence) ∧
    ofDecimal (toDecimal iss.source_issue_index) = iss.source_issue_index ∧
    ofDecimal (toDecimal iss.sequence) = iss.sequence := by
  have hfl : frontmatter_lines iss =
      toL "---" :: kvLine (toL "title") iss.title :: kvLine (toL "group") iss.group ::
      kvLine (toL "category") iss.category ::
      kvLine (toL "priority") (iss.priority.getD []) ::
      kvLine (toL "status") iss.status :: kvLine (toL "source") iss.sourceRel ::
      kvLine (toL "issue_index") (toDecimal iss.source_issue_index) ::
      kvLine (toL "sequence") (toDecimal iss.sequence) :: [toL "---"] := by
    rw [frontmatter_lines, frontmatterFields, hextra]
    rfl
  have hnl_all : ∀ l ∈ frontmatter_lines iss, '\n' ∉ l := by
    rw [hfl]
    intro l hl
    simp only [List.mem_cons, List.not_mem_nil, or_false] at hl
    rcases hl with rfl | rfl | rfl | rfl | rfl | rfl | rfl | rfl | rfl | rfl
    · decide
    · exact kvLine_no_newline _ _ (by decide) ht
    · exact kvLine_no_newline _ _ (by decide) hg
    · exact kvLine_no_newline _ _ (by decide) hc
    · exact kvLine_no_newline _ _ (by decide) hp
    · exact kvLine_no_newline _ _ (by decide) hst
    · exact kvLine_no_newline _ _ (by decide) hsr
    · exact kvLine_no_newline _ _ (by decide) (toDecimal_no_newline _)
    · exact kvLine_no_newline _ _ (by decide) (toDecimal_no_newline _)
    · decide
  have hsplit : splitNl (documentOf iss) =
      frontmatter_lines iss ++ [] :: splitNl (pyRStrip iss.body ++ toL "\n") := by
    rw [documentOf]
    have h2 : toL "\n\n" = ['\n', '\n'] := rfl
    rw [h2]
    have hassoc :
        joinNl (frontmatter_lines iss) ++ ['\n', '\n'] ++ (pyRStrip iss.body ++ toL "\n")
          = joinNl (frontmatter_lines iss)
              ++ '\n' :: ('\n' :: (pyRStrip iss.body ++ toL "\n")) := by
      simp
    rw [hassoc,
      splitNl_joinNl_append _ _ (by rw [hfl]; simp) hnl_all,
      splitNl_cons_newline]
  have hblock : metaBlock (documentOf iss) =
      kvLine (toL "title") iss.title :: kvLine (toL "group") iss.group ::
      kvLine (toL "category") iss.category ::
      kvLine (toL "priority") (iss.priority.getD []) ::
      kvLine (toL "status") iss.status :: kvLine (toL "source") iss.sourceRel ::
      kvLine (toL "issue_index") (toDecimal iss.source_issue_index) ::
      [kvLine (toL "sequence") (toDecimal iss.sequence)] := by
    rw [metaBlock, hsplit, hfl]
    simp only [List.cons_append, List.singleton_append]
    rw [List.dropWhile_cons]
    rw [if_neg (by decide)]
    simp only [List.drop_succ_cons, List.drop_zero]
    exact takeWhile_until_dashes
      [kvLine (toL "title") iss.title, kvLine (toL "group") iss.group,
       kvLine (toL "category") iss.category,
       kvLine (toL "priority") (iss.priority.getD []),
       kvLine (toL "status") iss.status, kvLine (toL "source") iss.sourceRel,
       kvLine (toL "issue_index") (toDecimal iss.source_issue_index),
       kvLine (toL "sequence") (toDecimal iss.sequence)]
      ([] :: splitNl (pyRStrip iss.body ++ toL "\n"))
      (by
        intro l hl
        simp only [List.mem_cons, List.not_mem_nil, or_false] at hl
        rcases hl with rfl | rfl | rfl | rfl | rfl | rfl | rfl | rfl <;>
          exact kvLine_beq_dashes _ _)
  refine ⟨?_, ?_, ?_, ?_, ?_, ofDecimal_toDecimal _, ofDecimal_toDecimal _⟩
  · exact specParse_of_block _ _ _ [] _ (by rw [hblock]; rfl) (by simp)
  · refine specParse_of_block _ _ _
      [kvLine (toL "title") iss.title, kvLine (toL "group") iss.group] _
      (by rw [hblock]; rfl) ?_
    intro L hL
    simp only [List.mem_cons, List.not_mem_nil, or_false] at hL
    rcases hL with rfl | rfl
    · exact key_mismatch _ _ _ (by decide) (by decide)
    · exact key_mismatch _ _ _ (by decide) (by decide)
  · refine specParse_of_block _ _ _
      [kvLine (toL "title") iss.title, kvLine (toL "group") iss.group,
       kvLine (toL "category") iss.category] _
      (by rw [hblock]; rfl) ?_
    intro L hL
    simp only [List.mem_cons, List.not_mem_nil, or_false] at hL
    rcases hL with rfl | rfl | rfl
    · exact key_mismatch _ _ _ (by decide) (by decide)
    · exact key_mismatch _ _ _ (by decide) (by decide)
    · exact key_mismatch _ _ _ (by decide) (by decide)
  · refine specParse_of_block _ _ _
      [kvLine (toL "title") iss.title, kvLine (toL "group") iss.group,
       kvLine (toL "category") iss.category,
       kvLine (toL "priority") (iss.priority.getD []),
       kvLine (toL "status") iss.status, kvLine (toL "source") iss.sourceRel] _
      (by rw [hblock]; rfl) ?_
    intro L hL
    simp only [List.mem_cons, List.not_mem_nil, or_false] at hL
    rcases hL with rfl | rfl | rfl | rfl | rfl | rfl
    · exact key_mismatch _ _ _ (by decide) (by decide)
    · exact key_mismatch _ _ _ (by decide) (by decide)
    · exact key_mismatch _ _ _ (by decide) (by decide)
    · exact key_mismatch _ _ _ (by decide) (by decide)
    · exact key_mismatch _ _ _ (by decide) (by decide)
    · exact key_mismatch _ _ _ (by decide) (by decide)
  · refine specParse_of_block _ _ _
      [kvLine (toL "title") iss.title, kvLine (toL "group") iss.group,
       kvLine (toL "category") iss.category,
       kvLine (toL "priority") (iss.priority.getD []),
       kvLine (toL "status") iss.status, kvLine (toL "source") iss.sourceRel,
       kvLine (toL "issue_index") (toDecimal iss.source_issue_index)] _
      (by rw [hblock]; rfl) ?_
    intro L hL
    simp only [List.mem_cons, List.not_mem_nil, or_false] at hL
    rcases hL with rfl | rfl | rfl | rfl | rfl | rfl | rfl
    · exact key_mismatch _ _ _ (by decide) (by decide)
    · exact key_mismatch _ _ _ (by decide) (by decide)
    · exact key_mismatch _ _ _ (by decide) (by decide)
    · exact key_mismatch _ _ _ (by decide) (by decide)
    · exact key_mismatch _ _ _ (by decide) (by decide)
    · exact key_mismatch _ _ _ (by decide) (by decide)
    · exact key_mismatch _ _ _ (by decide) (by decide)

theorem c7_frontmatter_roundtrip_witness :
    specParseMetaField
      (documentOf ⟨toL "Time \"out\"", 2, toL "INFRA", toL "monitoring", 5,
        toL "tasks/reviews/INFRA_MONITORING.md", toL "## body\n",
        some (toL "High"), toL "pending", []⟩)
      (toL "title") = some (toL "Time \"out\"") :=
  (c7_frontmatter_roundtrip _ rfl (by decide) (by decide) (by decide) (by decide)
    (by decide) (by decide)).1


theorem tryHeading_bounds (l : List Char) (mlen : Nat) (d t : List Char)
    (h : tryHeading l = some (mlen, d, t)) : 0 < mlen ∧ mlen ≤ l.length := by
  rw [tryHeading] at h
  by_cases h3 : (toL "###").isPrefixOf l
  case neg =>
    rw [if_neg h3] at h
    exact absurd h (by simp)
  rw [if_pos h3] at h
  simp only [] at h
  have hl3 : 3 ≤ l.length := by
    have hp : toL "###" <+: l := by
      rw [ List.isPrefixOf_iff_prefix] at h3
      exact h3
    have := hp.length_le
    simpa [toL] using this
  by_cases hw1 : ((l.drop 3).takeWhile isPySpace).isEmpty
  · rw [if_pos hw1] at h
    exact absurd h (by simp)
  rw [if_neg hw1] at h
  by_cases hd :
      (((l.drop 3).drop ((l.drop 3).takeWhile isPySpace).length).takeWhile isDigitChar).isEmpty
  · rw [if_pos hd] at h
    exact absurd h (by simp)
  rw [if_neg hd] at h
  have hw1len : ((l.drop 3).takeWhile isPySpace).length ≤ l.length - 3 := by
    have := ((l.drop 3).takeWhile_sublist isPySpace).length_le
    simpa using this
  have hw1pos : 0 < ((l.drop 3).takeWhile isPySpace).length := by
    cases hne : (l.drop 3).takeWhile isPySpace with
    | nil => rw [hne] at hw1; simp at hw1
    | cons a b => simp [hne]
  have hdlen :
      ((((l.drop 3).drop ((l.drop 3).takeWhile isPySpace).length).takeWhile isDigitChar).length)
        ≤ l.length - 3 - ((l.drop 3).takeWhile isPySpace).length := by
    have h0 := (((l.drop 3).drop
      ((l.drop 3).takeWhile isPySpace).length).takeWhile_sublist isDigitChar).length_le
    simp only [List.length_drop] at h0
    omega
  have hdpos : 0 <
      ((((l.drop 3).drop ((l.drop 3).takeWhile isPySpace).length).takeWhile isDigitChar).length) := by
    cases hne : ((l.drop 3).drop ((l.drop 3).takeWhile isPySpace).length).takeWhile isDigitChar with
    | nil => rw [hne] at hd; simp at hd
    | cons a b => simp [hne]
  cases hr3 : ((l.drop 3).drop ((l.drop 3).takeWhile isPySpace).length).drop
      ((((l.drop 3).drop ((l.drop 3).takeWhile isPySpace).length).takeWhile isDigitChar).length)
    with
  | nil =>
    rw [hr3] at h
    exact absurd h (by simp)
  | cons c0 r4 =>
    rw [hr3] at h
    dsimp only at h
    by_cases hc0 : c0 = '.'
    · rw [if_pos hc0] at h
      by_cases hw2 : (r4.takeWhile isPySpace).isEmpty
      · rw [if_pos hw2] at h
        exact absurd h (by simp)
      · rw [if_neg hw2] at h
        simp only [Option.some.injEq, Prod.mk.injEq] at h
        obtain ⟨hm, _, _⟩ := h
        have hr4len : r4.length + 1 =
            l.length - 3 - ((l.drop 3).takeWhile isPySpace).length -
              ((((l.drop 3).drop ((l.drop 3).takeWhile isPySpace).length).takeWhile
                isDigitChar).length) := by
          have h2 := congrArg List.length hr3
          simp only [List.length_drop, List.length_cons] at h2
          omega
        have hw2len : (r4.takeWhile isPySpace).length ≤ r4.length := by
          have := (r4.takeWhile_sublist isPySpace).length_le
          simpa using this
        have htlen : ((r4.drop (r4.takeWhile isPySpace).length).takeWhile
            (fun c => !(c == '\n'))).length ≤ r4.length - (r4.takeWhile isPySpace).length := by
          have := ((r4.drop (r4.takeWhile isPySpace).length).takeWhile_sublist
            (fun c => !(c == '\n'))).length_le
          simpa using this
        omega
    · rw [if_neg hc0] at h
      exact absurd h (by simp)

theorem findAux_bounds :
    ∀ fuel (l : List Char) (pos : Nat) (bol : Bool) (m : HMatch),
      m ∈ findAux fuel l pos bol → pos ≤ m.s ∧ m.s ≤ m.e ∧ m.e ≤ pos + l.length := by
  intro fuel
  induction fuel with
  | zero =>
    intro l pos bol m hm
    simp [findAux] at hm
  | succ f ih =>
    intro l pos bol m hm
    match l with
    | [] => simp [findAux] at hm
    | c :: rest =>
      rw [findAux] at hm
      by_cases hbol : bol
      · rw [if_pos hbol] at hm
        cases htry : tryHeading (c :: rest) with
        | none =>
          rw [htry] at hm
          have hb := ih rest (pos + 1) (c == '\n') m hm
          simp only [List.length_cons]
          omega
        | some res =>
          obtain ⟨mlen, dd, tt⟩ := res
          rw [htry] at hm
          obtain ⟨hpos, hle⟩ := tryHeading_bounds _ _ _ _ htry
          rcases List.mem_cons.mp hm with rfl | hm2
          · simp only [List.length_cons] at hle
            refine ⟨le_rfl, ?_, ?_⟩
            · show pos ≤ pos + mlen
              omega
            · show pos + mlen ≤ pos + (rest.length + 1)
              omega
          · have hb := ih _ _ _ m hm2
            have hdrop : ((c :: rest).drop mlen).length = (c :: rest).length - mlen :=
              List.length_drop _ _
            rw [hdrop] at hb
            simp only [List.length_cons] at hle hb ⊢
            omega
      · rw [if_neg hbol] at hm
        have hb := ih rest (pos + 1) (c == '\n') m hm
        simp only [List.length_cons]
        omega

theorem findAux_chain :
    ∀ fuel (l : List Char) (pos : Nat) (bol : Bool),
      List.Chain' (fun a b => a.e ≤ b.s) (findAux fuel l pos bol) := by
  intro fuel
  induction fuel with
  | zero =>
    intro l pos bol
    simp [findAux]
  | succ f ih =>
    intro l pos bol
    match l with
    | [] => simp [findAux]
    | c :: rest =>
      rw [findAux]
      by_cases hbol : bol
      · rw [if_pos hbol]
        cases htry : tryHeading (c :: rest) with
        | none => exact ih rest (pos + 1) (c == '\n')
        | some res =>
          obtain ⟨mlen, dd, tt⟩ := res
          refine List.chain'_cons'.mpr ⟨?_, ih _ _ _⟩
          intro y hy
          have hmem := List.mem_of_mem_head? hy
          have hb := findAux_bounds f _ _ _ y hmem
          simp only []
          omega
      · rw [if_neg hbol]
        exact ih rest (pos + 1) (c == '\n')

theorem slice_append_slice (text : List Char) (a b c : Nat) (h1 : a ≤ b) (h2 : b ≤ c) :
    slice text a b ++ slice text b c = slice text a c := by
  rw [slice, slice, slice]
  have hc : c - a = (b - a) + (c - b) := by omega
  rw [hc, List.take_add]
  have hd : (text.drop a).drop (b - a) = text.drop b := by
    rw [List.drop_drop]
    congr 1
    omega
  rw [hd]

theorem segsJoin :
    ∀ (mtail : List HMatch) (m0 : HMatch) (text : List Char),
      List.Chain' (fun a b => a.e ≤ b.s) (m0 :: mtail) →
      (∀ m ∈ m0 :: mtail, m.s ≤ m.e ∧ m.e ≤ text.length) →
      (List.zipWith (fun mm sp => slice text mm.s mm.e ++ sp) (m0 :: mtail)
        (rawSpansGo text (m0 :: mtail))).flatten = slice text m0.s text.length := by
  intro mtail
  induction mtail with
  | nil =>
    intro m0 text _ hbounds
    rw [rawSpansGo]
    simp only [List.zipWith_cons_cons, List.zipWith_nil_right, List.flatten_cons, List.flatten_nil,
      List.append_nil]
    obtain ⟨h1, h2⟩ := hbounds m0 (List.mem_cons_self _ _)
    exact slice_append_slice text _ _ _ h1 h2
  | cons m1 mtail2 ih =>
    intro m0 text hchain hbounds
    rw [rawSpansGo]
    simp only [List.zipWith_cons_cons, List.flatten_cons]
    rw [ih m1 text (List.chain'_cons.mp hchain).2
      (fun m hm => hbounds m (List.mem_cons_of_mem _ hm))]
    obtain ⟨hs0, he0⟩ := hbounds m0 (List.mem_cons_self _ _)
    obtain ⟨hs1, he1⟩ := hbounds m1 (List.mem_cons_of_mem _ (List.mem_cons_self _ _))
    have h01 : m0.e ≤ m1.s := (List.chain'_cons.mp hchain).1
    rw [List.append_assoc, slice_append_slice text m0.e m1.s text.length h01 (by omega),
      slice_append_slice text m0.s m0.e text.length hs0 (by omega)]

/-- C8: the heading matches of a document are in increasing position order,
each issue's raw span runs from its heading's end to the next heading's start
(or the end of the text), and prefix + headings + spans concatenate back to
the whole document: no text from the first heading onward is dropped. -/
theorem c8_spans_partition (text : List Char) (m0 : HMatch) (mtail : List HMatch)
    (h : findHeadings text = m0 :: mtail) :
    text = text.take m0.s ++
      (List.zipWith (fun mm sp => slice text mm.s mm.e ++ sp) (findHeadings text)
        (rawSpans text)).flatten := by
  have h2 : findAux (text.length + 1) text 0 true = m0 :: mtail := h
  have hchain : List.Chain' (fun a b => a.e ≤ b.s) (m0 :: mtail) := by
    have hch := findAux_chain (text.length + 1) text 0 true
    rw [h2] at hch
    exact hch
  have hbounds : ∀ m ∈ m0 :: mtail, m.s ≤ m.e ∧ m.e ≤ text.length := by
    intro m hm
    have hb := findAux_bounds (text.length + 1) text 0 true m (by rw [h2]; exact hm)
    omega
  rw [rawSpans, h]
  rw [segsJoin mtail m0 text hchain hbounds]
  have hs : m0.s ≤ text.length := by
    obtain ⟨hb1, hb2⟩ := hbounds m0 (List.mem_cons_self _ _)
    omega
  have hdropfull : slice text m0.s text.length = text.drop m0.s := by
    rw [slice]
    exact List.take_of_length_le (by rw [List.length_drop])
  rw [hdropfull]
  exact (List.take_append_drop _ _).symm

theorem c8_spans_partition_witness :
    findHeadings (toL "### 1. A\nx\n### 2. B")
      = [⟨0, 8, toL "1", toL "A"⟩, ⟨11, 19, toL "2", toL "B"⟩] ∧
    toL "### 1. A\nx\n### 2. B" =
      (toL "### 1. A\nx\n### 2. B").take ((⟨0, 8, toL "1", toL "A"⟩ : HMatch).s) ++
        (List.zipWith (fun mm sp => slice (toL "### 1. A\nx\n### 2. B") mm.s mm.e ++ sp)
          (findHeadings (toL "### 1. A\nx\n### 2. B"))
          (rawSpans (toL "### 1. A\nx\n### 2. B"))).flatten :=
  ⟨by decide,
    c8_spans_partition (toL "### 1. A\nx\n### 2. B") ⟨0, 8, toL "1", toL "A"⟩
      [⟨11, 19, toL "2", toL "B"⟩] (by decide)⟩

end ConvertReview
